import Mathlib

/-!
# Verification of the multisource-downloader download service

Shallow embedding of the `download` package (`service.go`, `helpers.go`,
`models.go`) of gkatanacio/multisource-downloader, together with proofs
about the chunk planner, the per-chunk failover loop, metadata
reconciliation, source prioritization, integrity verification and the
filesystem-operation ordering of `Download`.

Modelling conventions:
* All integer quantities that the program keeps in `int64`/`uint` are
  non-negative on every path we model (Go's `ContentLength` is `-1` or
  `≥ 0`; it is checked against `-1` before a `fileMetadata` is minted),
  so sizes, offsets and connection counts are `Nat`; `Nat` division and
  modulo agree with Go's on non-negative operands.
* Go runtime panics (integer division by zero, index out of range) are
  modelled as the explicit outcome `DlOutcome.goPanic`.
* The non-terminating chunk loop is modelled with fuel: a `none` result
  means the loop did not finish within the given number of iterations.
* HTTP traffic, wall-clock latencies and goroutine scheduling are
  oracles passed in as parameters: `head`/`lat` give each probe's
  response and measured latency, `arrival` is the order in which the
  probe goroutines deliver their results over the shared channel (any
  permutation of the indices is a possible schedule), and `fetch` gives
  the result of one ranged GET.
* The `errgroup` in `downloadFileContents` is determinized by processing
  chunks in index order and surfacing the first error; file writes
  (`io.Copy` onto the `OffsetWriter`) are assumed to succeed, and a
  failed `os.Rename` is modelled as leaving both paths untouched.
-/

/-- Byte strings are lists of byte values. -/
abbrev Bytes := List Nat

/-- The fields of an `http.Response` that the prober reads: `StatusCode`,
`ContentLength` (Go: `-1` when unknown, never any other negative),
`Header.Get("Accept-Ranges")`, `Header.Get("ETag")` and
`Header.Get("Content-Type")` (absent headers read as `""`). -/
structure HeadResponse where
  statusCode : Nat
  contentLength : Int
  acceptRanges : String
  eTag : String
  contentType : String
deriving DecidableEq, Repr

/-- `models.go`: `fileMetadata` — relevant metadata for a download file. -/
structure fileMetadata where
  size : Nat
  contentType : String
  eTag : String
deriving DecidableEq, Repr

/-- `models.go`: `sourceFileMetadata` — file metadata plus details of its
download source.  The Go struct embeds `fileMetadata`; here it is the
explicit field `fm`. -/
structure sourceFileMetadata where
  fm : fileMetadata
  url : String
  estLatency : Nat
deriving DecidableEq, Repr

/-- `models.go`: `Options` — configuration of the download service. -/
structure Options where
  Connections : Nat
  Timeout : Nat
  CheckETag : Bool
  DestFilePath : String
deriving DecidableEq, Repr

/-- The distinguishable error values of `service.go` (the sentinel `errors.New`
values, plus `httpStatus` for the `fmt.Errorf` produced on a non-200 HEAD
status and `renameFailed` for an `os.Rename` failure). -/
inductive Err where
  | noSourceUrls
  | sourcesFileMismatch
  | eTagMismatch
  | unknownContentLength
  | partialRequestUnsupported
  | failedChunkDownloadAllSources
  | httpStatus (code : Nat)
  | renameFailed
deriving DecidableEq, Repr

/-- Outcome of a `Download` call: normal return, error return, or a Go
runtime panic. -/
inductive DlOutcome where
  | ok
  | err (e : Err)
  | goPanic
deriving DecidableEq, Repr

/-- Filesystem operations performed by `Download`, in program order:
`os.Create`, a positional chunk write through `io.NewOffsetWriter`,
the full read performed by `getMD5Hash`, a successful `os.Rename`,
and `File.Close`. -/
inductive FsOp where
  | createF (path : String)
  | writeAt (path : String) (offset : Nat) (data : Bytes)
  | md5Read (path : String)
  | renameF (src : String) (dst : String)
  | closeF (path : String)
deriving DecidableEq, Repr

/-- `service.go`: `suffixOngoingDownload`. -/
def suffixOngoingDownload : String := ".download"

/-- Go `strings.Trim(s, "\x22")`: remove all leading and trailing
double-quote characters. -/
def trimQuotes (s : String) : String :=
  String.mk (((s.data.dropWhile (fun c => c = '"')).reverse.dropWhile
    (fun c => c = '"')).reverse)

/-- Lower-case hexadecimal digit for a value `< 16`, as produced by Go's
`fmt.Sprintf("%x", ...)`. -/
def hexChar (n : Nat) : Char :=
  if n < 10 then Char.ofNat (48 + n) else Char.ofNat (87 + n)

/-- Two lower-case hex digits of one byte. -/
def hexByte (b : Nat) : List Char :=
  [hexChar (b / 16), hexChar (b % 16)]

/-- Go `fmt.Sprintf("%x", digest)`: lower-case hex encoding of a byte
string. -/
def hexEncode (bs : Bytes) : String :=
  String.mk (bs.map hexByte).flatten

/-- `helpers.go`: `getMD5Hash` — read the whole staged file and return the
hex encoding of its MD5 digest.  The MD5 compression itself is the oracle
`md5f`; `Stat`/`Read` errors are environment failures outside the model
(Go's `Read` on a zero-length buffer returns `(0, nil)`, so the empty file
is not an error path either). -/
def getMD5Hash (md5f : Bytes → Bytes) (contents : Bytes) : String :=
  hexEncode (md5f contents)

/-- Positional write of `data` at `offset` into a file with current
contents `file`; the gap (if the file is shorter than `offset`) is
zero-filled, as the filesystem does for sparse writes. -/
def writeAtBytes (file : Bytes) (offset : Nat) (data : Bytes) : Bytes :=
  (file.take offset ++ List.replicate (offset - file.length) 0) ++ data ++
    file.drop (offset + data.length)

/-- `service.go` lines 104–141: the body of one probe goroutine.  Builds a
`sourceFileMetadata` from the HEAD response, or rejects the source: non-200
status, `ContentLength == -1`, or an `Accept-Ranges` header that is empty or
(exactly) the string `none`.  Note the Go code does not populate
`contentType` here, so the minted metadata carries the zero value `""`. -/
def probeSource (url : String) (estLatency : Nat) (resp : HeadResponse) :
    Except Err sourceFileMetadata :=
  if resp.statusCode ≠ 200 then .error (.httpStatus resp.statusCode)
  else if resp.contentLength = -1 then .error .unknownContentLength
  else if resp.acceptRanges.length = 0 ∨ resp.acceptRanges = "none" then
    .error .partialRequestUnsupported
  else .ok { url := url, estLatency := estLatency,
             fm := { size := resp.contentLength.toNat, contentType := "",
                     eTag := trimQuotes resp.eTag } }

/-- `service.go`: `fetchFileMetadataFromSources`.  Every URL is probed in its
own goroutine; results are collected from a shared channel, so on success the
list order is the goroutines' completion order, given by the schedule oracle
`arrival` (a permutation of the URL indices).  If any probe fails the whole
call fails with a probe error (determinized here to the lowest-index one;
`errgroup` surfaces the temporally first). -/
def fetchFileMetadataFromSources (sourceUrls : List String)
    (head : Nat → HeadResponse) (lat : Nat → Nat) (arrival : List Nat) :
    Except Err (List sourceFileMetadata) :=
  let results := (List.range sourceUrls.length).map
    (fun k => probeSource (sourceUrls.getD k "") (lat k) (head k))
  match results.findSome?
    (fun r => match r with | .error e => some e | .ok _ => none) with
  | some e => .error e
  | none => .ok (arrival.filterMap (fun k =>
      match results.getD k (.error .noSourceUrls) with
      | .ok m => some m
      | .error _ => none))

/-- `helpers.go`: `allSourcesMatchFileMetadata`.  The Go loop compares each
adjacent pair `(srcFileMetas[i-1], srcFileMetas[i])`; the recursion below
walks the same adjacent pairs. -/
def allSourcesMatchFileMetadata : List sourceFileMetadata → Bool → Bool
  | sfmA :: sfmB :: rest, checkETag =>
    if sfmA.fm.size ≠ sfmB.fm.size ∨ sfmA.fm.contentType ≠ sfmB.fm.contentType
      then false
    else if checkETag = true ∧ sfmA.fm.eTag ≠ sfmB.fm.eTag then false
    else allSourcesMatchFileMetadata (sfmB :: rest) checkETag
  | _, _ => true

/-- One step of `insertionSort_func`, the insertion sort that Go's
`sort.Slice` (pdqsort) dispatches to for ranges of at most 12 elements:
move the new element left while it is strictly `Less` than its left
neighbour.  Acting on a sorted prefix, this inserts `x` before the first
element strictly greater than it. -/
def bubbleInsertGo (x : sourceFileMetadata) :
    List sourceFileMetadata → List sourceFileMetadata
  | [] => [x]
  | y :: ys =>
    if x.estLatency < y.estLatency then x :: y :: ys
    else y :: bubbleInsertGo x ys

/-- Go's `sort.Slice(srcFileMetasCopy, less)` with
`less i j = estLatency i < estLatency j`.  `sort.Slice` is pdqsort, which
is documented as *not* stable and runs the insertion sort above only for
slices of at most 12 elements, so this definition is element-for-element
exact for at most 12 sources — in particular for every concrete list
evaluated in this file.  For longer slices this model shares only
`sort.Slice`'s documented contract, a permutation of the input ordered by
the comparator, and the general theorems below assert nothing beyond that
contract: no tie-order property of this model is stated or relied on. -/
def sortSliceGo (l : List sourceFileMetadata) : List sourceFileMetadata :=
  l.foldl (fun acc x => bubbleInsertGo x acc) []

/-- `helpers.go`: `sourceUrlsSortedByEstLatency` — copy the slice, sort it by
ascending estimated latency, and project the URLs. -/
def sourceUrlsSortedByEstLatency (srcFileMetas : List sourceFileMetadata) :
    List String :=
  (sortSliceGo srcFileMetas).map (fun sfm => sfm.url)

/-- `service.go` line 162: `chunkSize := fileMetadata.size /
int64(s.opts.Connections)` — the unguarded integer division; `none` models
Go's division-by-zero runtime panic. -/
def chunkSizeGo (size connections : Nat) : Option Nat :=
  if connections = 0 then none else some (size / connections)

/-- `service.go` line 206: the `Range` header `fetchChunk` sets, with both
bounds inclusive per RFC 9110: `fmt.Sprintf("bytes=%d-%d", start, end)`. -/
def fetchChunkRangeHeader (start endB : Nat) : String :=
  "bytes=" ++ toString start ++ "-" ++ toString endB

/-- The byte ranges requested by the chunk loop of `downloadFileContents`
(`service.go` line 167): starting from `offset`, while `offset < S` emit the
pair `(offset, min (offset + chunkSize) S)` — the `start` and `end` that
`fetchChunk` puts in the `Range` header — and advance by `chunkSize`.
`fuel` bounds the number of iterations; `none` means the loop did not
terminate within `fuel` iterations. -/
def chunkRangesFuel (S chunkSize : Nat) : Nat → Nat → Option (List (Nat × Nat))
  | fuel, offset =>
    if offset < S then
      match fuel with
      | 0 => none
      | fuel' + 1 =>
        (chunkRangesFuel S chunkSize fuel' (offset + chunkSize)).map
          (fun rest => (offset, Nat.min (offset + chunkSize) S) :: rest)
    else some []

/-- The retry loop of the chunk goroutine (`service.go` lines 178–184):
`for j := 0; j < len(sourceUrls) && err != nil; j++`, skipping the index of
the initial attempt.  `js` is the list of remaining values of `j`; the
second component collects the URLs actually attempted, in order.  `fetch`
is the network oracle for `fetchChunk`: `fetch url start end` is `some`
body on success. -/
def tryOtherSources (fetch : String → Nat → Nat → Option Bytes)
    (sourceUrls : List String) (srcIdxInitAttempt offset limit : Nat) :
    List Nat → Except Err Bytes × List String
  | [] => (.error .failedChunkDownloadAllSources, [])
  | j :: js =>
    if j = srcIdxInitAttempt then
      tryOtherSources fetch sourceUrls srcIdxInitAttempt offset limit js
    else
      let url := sourceUrls.getD j ""
      match fetch url offset limit with
      | some chunk => (.ok chunk, [url])
      | none =>
        let r := tryOtherSources fetch sourceUrls srcIdxInitAttempt offset limit js
        (r.1, url :: r.2)

/-- The body of one chunk goroutine (`service.go` lines 171–188): first
attempt at `sourceUrls[i % len(sourceUrls)]`, then the retry loop over the
other sources; if every source fails the goroutine returns
`ErrFailedChunkDownloadAllSources`.  Returns the result together with the
URLs attempted, in order.  (Callers guarantee `sourceUrls ≠ []`; the modulo
panic for the empty list is modelled at the loop in `chunkLoop`.) -/
def downloadChunkGo (fetch : String → Nat → Nat → Option Bytes)
    (sourceUrls : List String) (i offset limit : Nat) :
    Except Err Bytes × List String :=
  let srcIdxInitAttempt := i % sourceUrls.length
  let url := sourceUrls.getD srcIdxInitAttempt ""
  match fetch url offset limit with
  | some chunk => (.ok chunk, [url])
  | none =>
    let r := tryOtherSources fetch sourceUrls srcIdxInitAttempt offset limit
      (List.range sourceUrls.length)
    (r.1, url :: r.2)

/-- The order of sources the spec prescribes for one chunk: the primary
`urls[i mod len(urls)]` first, then the remaining URLs in prioritized order
(index `0` upward, skipping the primary).  This definition follows the
spec's words, for comparison with `downloadChunkGo`. -/
def specAttemptOrder (sourceUrls : List String) (i : Nat) : List String :=
  let p := i % sourceUrls.length
  sourceUrls.getD p "" ::
    ((List.range sourceUrls.length).filter (fun j => j ≠ p)).map
      (fun j => sourceUrls.getD j "")

/-- Reference semantics, from the spec's words: try the given URLs in order,
return the first success, and report `chunk-download-exhausted` when every
one fails.  Second component: the URLs attempted, in order. -/
def specTryInOrder (fetch : String → Nat → Nat → Option Bytes)
    (offset limit : Nat) : List String → Except Err Bytes × List String
  | [] => (.error .failedChunkDownloadAllSources, [])
  | url :: urls =>
    match fetch url offset limit with
    | some chunk => (.ok chunk, [url])
    | none =>
      let r := specTryInOrder fetch offset limit urls
      (r.1, url :: r.2)

/-- The chunk loop of `downloadFileContents` (`service.go` lines 167–195),
determinized to process chunks in index order: while `offset < S`, run the
chunk goroutine for `(offset, min(offset+chunkSize, S))` and write its body
at `offset` into the staging file, whose contents are threaded through.
The first failing chunk's error is surfaced.  `none` models a loop that
did not terminate within `fuel` iterations; `goPanic` models the
index-out-of-range/modulo panic when `sourceUrls` is empty. -/
def chunkLoop (fetch : String → Nat → Nat → Option Bytes)
    (sourceUrls : List String) (S chunkSize : Nat) (staging : String) :
    Nat → Nat → Nat → Bytes → Option (DlOutcome × List FsOp × Bytes)
  | fuel, offset, i, contents =>
    if offset < S then
      match fuel with
      | 0 => none
      | fuel' + 1 =>
        if sourceUrls.length = 0 then some (.goPanic, [], contents)
        else
          let limit := Nat.min (offset + chunkSize) S
          match (downloadChunkGo fetch sourceUrls i offset limit).1 with
          | .error e => some (.err e, [], contents)
          | .ok chunk =>
            match chunkLoop fetch sourceUrls S chunkSize staging fuel'
                (offset + chunkSize) (i + 1) (writeAtBytes contents offset chunk) with
            | none => none
            | some (o, tr, c') =>
              some (o, .writeAt staging offset chunk :: tr, c')
    else some (.ok, [], contents)

/-- `service.go`: `downloadFileContents` — compute the chunk size by the
unguarded division (`goPanic` when `Connections = 0`, Go's runtime panic),
then run the chunk loop from offset `0`. -/
def downloadFileContents (fetch : String → Nat → Nat → Option Bytes)
    (connections : Nat) (sourceUrls : List String) (fm : fileMetadata)
    (staging : String) (fuel : Nat) : Option (DlOutcome × List FsOp × Bytes) :=
  match chunkSizeGo fm.size connections with
  | none => some (.goPanic, [], [])
  | some chunkSize => chunkLoop fetch sourceUrls fm.size chunkSize staging fuel 0 0 []

/-- `service.go` lines 76–93: the tail of `Download` after the chunk phase —
the optional integrity verification (`getMD5Hash` against the reconciled
`eTag`), then `os.Rename` onto the destination, and the deferred
`File.Close`, which Go runs when `Download` returns.  `renameOk` is the
oracle for `os.Rename`; a failed rename leaves both paths untouched, so no
`renameF` event is recorded for it. -/
def finishDownload (checkETag : Bool) (eTag : String) (contents : Bytes)
    (md5f : Bytes → Bytes) (renameOk : Bool) (staging destFilePath : String) :
    DlOutcome × List FsOp :=
  if checkETag = true ∧ 0 < eTag.length then
    if getMD5Hash md5f contents ≠ eTag then
      (.err .eTagMismatch, [.md5Read staging, .closeF staging])
    else if renameOk then
      (.ok, [.md5Read staging, .renameF staging destFilePath, .closeF staging])
    else
      (.err .renameFailed, [.md5Read staging, .closeF staging])
  else if renameOk then
    (.ok, [.renameF staging destFilePath, .closeF staging])
  else
    (.err .renameFailed, [.closeF staging])

/-- `service.go`: `Download` — reject an empty URL list, probe all sources,
reconcile their metadata, adopt `srcFileMetas[0]`'s metadata (a Go index
panic if the list were empty), create the staging file at
`DestFilePath + ".download"`, fetch all chunks through the prioritized URL
list, verify integrity when configured, rename the staging file onto the
destination, and close the staging file via the deferred `Close` (which also
runs on the error and panic paths).  Returns the outcome together with the
ordered trace of filesystem operations. -/
def DownloadGo (opts : Options) (sourceUrls : List String)
    (head : Nat → HeadResponse) (lat : Nat → Nat) (arrival : List Nat)
    (fetch : String → Nat → Nat → Option Bytes) (md5f : Bytes → Bytes)
    (renameOk : Bool) (fuel : Nat) : Option (DlOutcome × List FsOp) :=
  if sourceUrls.length = 0 then some (.err .noSourceUrls, [])
  else
    match fetchFileMetadataFromSources sourceUrls head lat arrival with
    | .error e => some (.err e, [])
    | .ok srcFileMetas =>
      if allSourcesMatchFileMetadata srcFileMetas opts.CheckETag = false then
        some (.err .sourcesFileMismatch, [])
      else
        match srcFileMetas with
        | [] => some (.goPanic, [])
        | fst :: _ =>
          let fm := fst.fm
          let staging := opts.DestFilePath ++ suffixOngoingDownload
          match downloadFileContents fetch opts.Connections
              (sourceUrlsSortedByEstLatency srcFileMetas) fm staging fuel with
          | none => none
          | some (.goPanic, tr, _) =>
            some (.goPanic, .createF staging :: tr ++ [.closeF staging])
          | some (.err e, tr, _) =>
            some (.err e, .createF staging :: tr ++ [.closeF staging])
          | some (.ok, tr, contents) =>
            let fin := finishDownload opts.CheckETag fm.eTag contents md5f
              renameOk staging opts.DestFilePath
            some (fin.1, .createF staging :: tr ++ fin.2)

/-- Whether a filesystem operation creates or modifies the file at path
`p`: `os.Create` and positional writes modify their target, a successful
`os.Rename` modifies its destination (and removes its source, which never
equals the destination here); reads and `Close` modify nothing. -/
def modifiesPath (op : FsOp) (p : String) : Bool :=
  match op with
  | .createF q => q == p
  | .writeAt q _ _ => q == p
  | .md5Read _ => false
  | .renameF _ dst => dst == p
  | .closeF _ => false

lemma chunkRangesFuel_stop (S c fuel offset : Nat) (h : ¬ offset < S) :
    chunkRangesFuel S c fuel offset = some [] := by
  rw [chunkRangesFuel.eq_def]
  simp [h]

lemma chunkRangesFuel_eq_map (S c : Nat) (hc : 1 ≤ c) :
    ∀ fuel offset, S ≤ offset + fuel →
      chunkRangesFuel S c fuel offset =
        some ((List.range ((S - offset + c - 1) / c)).map
          (fun j => (offset + j * c, Nat.min (offset + j * c + c) S))) := by
  intro fuel
  induction fuel with
  | zero =>
    intro offset h
    have hno : ¬ offset < S := by omega
    rw [chunkRangesFuel_stop S c 0 offset hno]
    have h0 : S - offset = 0 := by omega
    have h1 : (S - offset + c - 1) / c = 0 := by
      rw [h0]; exact Nat.div_eq_of_lt (by omega)
    rw [h1]
    simp
  | succ f ih =>
    intro offset h
    by_cases hlt : offset < S
    · rw [chunkRangesFuel.eq_def]
      simp only [hlt, if_true]
      rw [ih (offset + c) (by omega)]
      simp only [Option.map_some']
      have hK : (S - offset + c - 1) / c = (S - (offset + c) + c - 1) / c + 1 := by
        have h1 : S - offset + c - 1 = (S - offset - 1) + c := by omega
        rw [h1, Nat.add_div_right _ (by omega)]
        by_cases hcd : c ≤ S - offset
        · have h2 : S - (offset + c) + c - 1 = S - offset - 1 := by omega
          rw [h2]
        · have h2 : S - (offset + c) = 0 := by omega
          rw [h2]
          have h3 : (0 + c - 1) / c = 0 := Nat.div_eq_of_lt (by omega)
          have h4 : (S - offset - 1) / c = 0 := Nat.div_eq_of_lt (by omega)
          rw [h3, h4]
      rw [hK, List.range_succ_eq_map]
      simp only [List.map_cons, List.map_map]
      refine congrArg some (congrArg₂ List.cons ?_ ?_)
      · simp
      · apply List.map_congr_left
        intro j hj
        have hco : offset + c + j * c = offset + (j + 1) * c := by
          rw [Nat.succ_mul]; omega
        simp only [Function.comp_apply, Nat.succ_eq_add_one, hco]
    · rw [chunkRangesFuel_stop S c (f + 1) offset hlt]
      have h0 : S - offset = 0 := by omega
      have h1 : (S - offset + c - 1) / c = 0 := by
        rw [h0]; exact Nat.div_eq_of_lt (by omega)
      rw [h1]
      simp

/-- **C1** (corrected).  For `1 ≤ n ≤ S` the chunk loop of
`downloadFileContents` terminates (fuel `S + 1` suffices) and requests, for
chunk `i`, the inclusive byte range `(i·(S/n), min(i·(S/n) + S/n, S))` via
`fetchChunk`'s `Range` header.  `offset_i = i·(S/n)` as the claim states,
but the requested end carries no `− 1`: it is `min(offset_i + S/n, S)`
itself, the final chunk's requested end is `S` (one past the last byte
`S − 1`), consecutive chunks share their boundary byte — so the requested
ranges are not pairwise disjoint — and their union is `[0, S]`, not
`[0, S − 1]`. -/
theorem c1_chunk_ranges (S n : Nat) (hn : 1 ≤ n) (hS : n ≤ S) :
    ∃ L : List (Nat × Nat), chunkRangesFuel S (S / n) (S + 1) 0 = some L ∧
      0 < L.length ∧
      (∀ i, ∀ hi : i < L.length,
        L.get ⟨i, hi⟩ = (i * (S / n), Nat.min (i * (S / n) + S / n) S)) ∧
      (∀ b : Nat, (∃ p ∈ L, p.1 ≤ b ∧ b ≤ p.2) ↔ b ≤ S) ∧
      (∀ i, ∀ h1 : i < L.length, ∀ h2 : i + 1 < L.length,
        (L.get ⟨i, h1⟩).2 = (L.get ⟨i + 1, h2⟩).1) ∧
      (∀ i, ∀ hi : i < L.length,
        fetchChunkRangeHeader (L.get ⟨i, hi⟩).1 (L.get ⟨i, hi⟩).2 =
          "bytes=" ++ toString (i * (S / n)) ++ "-" ++
            toString (Nat.min (i * (S / n) + S / n) S)) := by
  have hn0 : 0 < n := hn
  have hc : 1 ≤ S / n := (Nat.one_le_div_iff hn0).mpr hS
  have hS1 : 1 ≤ S := le_trans hn hS
  set c := S / n with hcdef
  have hmain := chunkRangesFuel_eq_map S c hc (S + 1) 0 (by omega)
  have hKK : (S - 0 + c - 1) / c = (S - 1) / c + 1 := by
    have h1 : S - 0 + c - 1 = (S - 1) + c := by omega
    rw [h1, Nat.add_div_right _ (by omega)]
  refine ⟨_, hmain, ?_, ?_, ?_, ?_, ?_⟩
  · simp only [List.length_map, List.length_range]
    rw [hKK]
    exact Nat.succ_pos ((S - 1) / c)
  · intro i hi
    simp only [List.length_map, List.length_range] at hi
    simp [List.get_eq_getElem, List.getElem_map, List.getElem_range]
  · intro b
    constructor
    · rintro ⟨p, hp, hb1, hb2⟩
      rcases List.mem_map.mp hp with ⟨j, hj, rfl⟩
      have : Nat.min (0 + j * c + c) S ≤ S := Nat.min_le_right _ _
      omega
    · intro hb
      rcases Nat.lt_or_ge b S with hbS | hbS
      · refine ⟨(0 + (b / c) * c, Nat.min (0 + (b / c) * c + c) S), ?_, ?_, ?_⟩
        · apply List.mem_map_of_mem
          apply List.mem_range.mpr
          rw [hKK]
          have : b / c ≤ (S - 1) / c := Nat.div_le_div_right (by omega)
          omega
        · have := Nat.div_mul_le_self b c
          omega
        · apply Nat.le_min.mpr
          refine ⟨?_, hb⟩
          have hdm : c * (b / c) + b % c = b := Nat.div_add_mod b c
          rw [Nat.mul_comm] at hdm
          have hr : b % c < c := Nat.mod_lt _ (by omega)
          omega
      · have hbeq : b = S := by omega
        refine ⟨(0 + ((S - 1) / c) * c, Nat.min (0 + ((S - 1) / c) * c + c) S),
          ?_, ?_, ?_⟩
        · apply List.mem_map_of_mem
          apply List.mem_range.mpr
          rw [hKK]
          omega
        · have := Nat.div_mul_le_self (S - 1) c
          omega
        · apply Nat.le_min.mpr
          have hdm : c * ((S - 1) / c) + (S - 1) % c = S - 1 :=
            Nat.div_add_mod (S - 1) c
          rw [Nat.mul_comm] at hdm
          have hr : (S - 1) % c < c := Nat.mod_lt _ (by omega)
          constructor
          · omega
          · omega
  · intro i h1 h2
    simp only [List.length_map, List.length_range] at h1 h2
    simp only [List.get_eq_getElem, List.getElem_map, List.getElem_range]
    have hip : i + 1 ≤ (S - 1) / c := by omega
    have hmul : (i + 1) * c ≤ (S - 1) / c * c := Nat.mul_le_mul_right c hip
    have hdms := Nat.div_mul_le_self (S - 1) c
    have hsm : (i + 1) * c = i * c + c := Nat.succ_mul i c
    have hle : 0 + i * c + c ≤ S := by omega
    have hm1 : Nat.min (0 + i * c + c) S ≤ 0 + i * c + c := Nat.min_le_left _ _
    have hm2 : 0 + i * c + c ≤ Nat.min (0 + i * c + c) S :=
      Nat.le_min.mpr ⟨le_refl _, hle⟩
    omega
  · intro i hi
    simp only [List.length_map, List.length_range] at hi
    simp [List.get_eq_getElem, List.getElem_map, List.getElem_range,
      fetchChunkRangeHeader]

/-- Witness for C1 at `S = 10`, `n = 2`: the hypotheses `1 ≤ 2 ≤ 10` hold
and the planner contract statement is realized concretely. -/
theorem c1_chunk_ranges_witness :
    ∃ L : List (Nat × Nat), chunkRangesFuel 10 (10 / 2) (10 + 1) 0 = some L ∧
      0 < L.length ∧
      (∀ i, ∀ hi : i < L.length,
        L.get ⟨i, hi⟩ = (i * (10 / 2), Nat.min (i * (10 / 2) + 10 / 2) 10)) ∧
      (∀ b : Nat, (∃ p ∈ L, p.1 ≤ b ∧ b ≤ p.2) ↔ b ≤ 10) ∧
      (∀ i, ∀ h1 : i < L.length, ∀ h2 : i + 1 < L.length,
        (L.get ⟨i, h1⟩).2 = (L.get ⟨i + 1, h2⟩).1) ∧
      (∀ i, ∀ hi : i < L.length,
        fetchChunkRangeHeader (L.get ⟨i, hi⟩).1 (L.get ⟨i, hi⟩).2 =
          "bytes=" ++ toString (i * (10 / 2)) ++ "-" ++
            toString (Nat.min (i * (10 / 2) + 10 / 2) 10)) :=
  c1_chunk_ranges 10 2 (by decide) (by decide)

/-- Counterexample for C1 as stated: at `S = 10`, `n = 2` the loop requests
the ranges `(0, 5)` and `(5, 10)`; chunk `0`'s requested end is `5`, not the
claimed `min(offset₀ + S/n, S) − 1 = 4`, and the two requested ranges are
neither equal nor disjoint (both contain byte `5`). -/
theorem c1_planner_contract_violated :
    chunkRangesFuel 10 (10 / 2) 11 0 = some [(0, 5), (5, 10)] ∧
    Nat.min (0 * (10 / 2) + 10 / 2) 10 - 1 = 4 ∧ (5 : Nat) ≠ 4 ∧
    ¬ (((0, 5) : Nat × Nat) = (5, 10) ∨ (5 : Nat) < 5 ∨ (10 : Nat) < 0) := by
  refine ⟨?_, by decide, by decide, by decide⟩
  decide

/-- **C2** (code bug).  With `file_size S = 1` and `connections n = 2`
(any `1 ≤ S < n` behaves the same), `downloadFileContents` computes
`chunkSize = S / n = 0`, and the chunk-generation loop never terminates:
whatever iteration bound is allowed, the loop is still running, contradicting
the claim (and §4.5 of the spec) that it terminates covering `[0, S − 1]`. -/
theorem c2_chunk_loop_diverges :
    chunkSizeGo 1 2 = some 0 ∧
    ∀ fuel : Nat, chunkRangesFuel 1 0 fuel 0 = none := by
  refine ⟨by decide, ?_⟩
  intro fuel
  induction fuel with
  | zero =>
    rw [chunkRangesFuel.eq_def]
    simp
  | succ f ih =>
    rw [chunkRangesFuel.eq_def]
    simpa using ih

lemma tryOtherSources_eq_spec (fetch : String → Nat → Nat → Option Bytes)
    (sourceUrls : List String) (p offset limit : Nat) :
    ∀ js : List Nat,
      tryOtherSources fetch sourceUrls p offset limit js =
        specTryInOrder fetch offset limit
          ((js.filter (fun j => j ≠ p)).map (fun j => sourceUrls.getD j "")) := by
  intro js
  induction js with
  | nil => rfl
  | cons j js ih =>
    by_cases hj : j = p
    · simp only [tryOtherSources, hj, if_pos rfl]
      rw [ih]
      simp [hj]
    · simp only [tryOtherSources, if_neg hj]
      have hf : (j :: js).filter (fun j => j ≠ p) =
          j :: js.filter (fun j => j ≠ p) := by
        simp [hj]
      rw [hf]
      simp only [List.map_cons, specTryInOrder]
      cases fetch (sourceUrls.getD j "") offset limit with
      | some chunk => rfl
      | none => rw [ih]

lemma tryOtherSources_error (fetch : String → Nat → Nat → Option Bytes)
    (sourceUrls : List String) (p offset limit : Nat) :
    ∀ (js : List Nat) (e : Err),
      (tryOtherSources fetch sourceUrls p offset limit js).1 = .error e →
      e = .failedChunkDownloadAllSources := by
  intro js
  induction js with
  | nil =>
    intro e he
    simpa [tryOtherSources] using he.symm
  | cons j js ih =>
    intro e he
    by_cases hj : j = p
    · rw [tryOtherSources, if_pos hj] at he
      exact ih e he
    · cases hf : fetch (sourceUrls.getD j "") offset limit with
      | some chunk =>
        rw [tryOtherSources, if_neg hj] at he
        simp only [hf] at he
        cases he
      | none =>
        rw [tryOtherSources, if_neg hj] at he
        simp only [hf] at he
        exact ih e he

lemma downloadChunkGo_error (fetch : String → Nat → Nat → Option Bytes)
    (sourceUrls : List String) (i offset limit : Nat) (e : Err)
    (h : (downloadChunkGo fetch sourceUrls i offset limit).1 = .error e) :
    e = .failedChunkDownloadAllSources := by
  rw [downloadChunkGo] at h
  cases hf : fetch (sourceUrls.getD (i % sourceUrls.length) "") offset limit with
  | some chunk =>
    simp only [hf] at h
    cases h
  | none =>
    simp only [hf] at h
    exact tryOtherSources_error fetch sourceUrls (i % sourceUrls.length)
      offset limit (List.range sourceUrls.length) e h

lemma chunkLoop_error (fetch : String → Nat → Nat → Option Bytes)
    (sourceUrls : List String) (S chunkSize : Nat) (staging : String) :
    ∀ (fuel offset i : Nat) (contents : Bytes) (e : Err) (tr : List FsOp)
      (c2 : Bytes),
      chunkLoop fetch sourceUrls S chunkSize staging fuel offset i contents =
        some (.err e, tr, c2) →
      e = .failedChunkDownloadAllSources := by
  intro fuel
  induction fuel with
  | zero =>
    intro offset i contents e tr c2 h
    rw [chunkLoop.eq_def] at h
    by_cases hlt : offset < S
    · simp [hlt] at h
    · simp [hlt] at h
  | succ f ih =>
    intro offset i contents e tr c2 h
    rw [chunkLoop.eq_def] at h
    by_cases hlt : offset < S
    · simp only [hlt, if_true] at h
      by_cases hlen : sourceUrls.length = 0
      · simp [hlen] at h
      · simp only [hlen, if_false] at h
        cases hdc : (downloadChunkGo fetch sourceUrls i offset
            (Nat.min (offset + chunkSize) S)).1 with
        | error e' =>
          simp only [hdc, Option.some.injEq, Prod.mk.injEq] at h
          have he' : e' = e := by
            have h1 := h.1
            cases h1
            rfl
          exact he' ▸ downloadChunkGo_error fetch sourceUrls i offset
            (Nat.min (offset + chunkSize) S) e' hdc
        | ok chunk =>
          simp only [hdc] at h
          cases hrec : chunkLoop fetch sourceUrls S chunkSize staging f
              (offset + chunkSize) (i + 1) (writeAtBytes contents offset chunk) with
          | none =>
            simp only [hrec] at h
            cases h
          | some res =>
            rcases res with ⟨o, tr', c'⟩
            simp only [hrec, Option.some.injEq, Prod.mk.injEq] at h
            have ho : o = .err e := h.1
            exact ih (offset + chunkSize) (i + 1)
              (writeAtBytes contents offset chunk) e tr' c' (ho ▸ hrec)
    · simp [hlt] at h

lemma downloadChunkGo_eq_spec (fetch : String → Nat → Nat → Option Bytes)
    (sourceUrls : List String) (i offset limit : Nat) :
    downloadChunkGo fetch sourceUrls i offset limit =
      specTryInOrder fetch offset limit (specAttemptOrder sourceUrls i) := by
  rw [downloadChunkGo, specAttemptOrder]
  cases hf : fetch (sourceUrls.getD (i % sourceUrls.length) "") offset limit with
  | some chunk => simp only [specTryInOrder, hf]
  | none =>
    simp only [specTryInOrder, hf]
    rw [tryOtherSources_eq_spec]

lemma specTryInOrder_all_none (fetch : String → Nat → Nat → Option Bytes)
    (offset limit : Nat) :
    ∀ urls : List String, (∀ u ∈ urls, fetch u offset limit = none) →
      (specTryInOrder fetch offset limit urls).1 =
        .error .failedChunkDownloadAllSources := by
  intro urls
  induction urls with
  | nil => intro _; rfl
  | cons u us ih =>
    intro hall
    have hu : fetch u offset limit = none := hall u (by simp)
    simp only [specTryInOrder, hu]
    exact ih (fun v hv => hall v (by simp [hv]))

/-- **C3** (confirmed).  For every chunk index `i` and non-empty prioritized
URL list, the chunk goroutine of `downloadFileContents` behaves exactly as
the spec's failover protocol: it attempts the URLs in the order
`urls[i mod m]` first, then the remaining URLs by ascending index skipping
the primary (`specAttemptOrder`), stopping at the first success; the first
URL it contacts is the primary; if every URL in that order fails the chunk
reports `ErrFailedChunkDownloadAllSources`; and any error the chunk loop of
`downloadFileContents` surfaces (hence the error `Download` returns from the
chunk phase) is that same sentinel. -/
theorem c3_failover_order (fetch : String → Nat → Nat → Option Bytes)
    (sourceUrls : List String) (i offset limit : Nat)
    (h : 1 ≤ sourceUrls.length) :
    downloadChunkGo fetch sourceUrls i offset limit =
      specTryInOrder fetch offset limit (specAttemptOrder sourceUrls i)
  ∧ (downloadChunkGo fetch sourceUrls i offset limit).2.headD "" =
      sourceUrls.getD (i % sourceUrls.length) ""
  ∧ ((∀ url ∈ specAttemptOrder sourceUrls i, fetch url offset limit = none) →
      (downloadChunkGo fetch sourceUrls i offset limit).1 =
        .error .failedChunkDownloadAllSources)
  ∧ (∀ (S chunkSize : Nat) (staging : String) (fuel off j : Nat)
      (contents : Bytes) (e : Err) (tr : List FsOp) (c2 : Bytes),
      chunkLoop fetch sourceUrls S chunkSize staging fuel off j contents =
        some (.err e, tr, c2) → e = .failedChunkDownloadAllSources) := by
  refine ⟨downloadChunkGo_eq_spec fetch sourceUrls i offset limit, ?_, ?_, ?_⟩
  · rw [downloadChunkGo]
    cases hf : fetch (sourceUrls.getD (i % sourceUrls.length) "") offset limit with
    | some chunk => simp [hf]
    | none => simp [hf]
  · intro hall
    rw [downloadChunkGo_eq_spec]
    exact specTryInOrder_all_none fetch offset limit _ hall
  · intro S chunkSize staging fuel off j contents e tr c2 hcl
    exact chunkLoop_error fetch sourceUrls S chunkSize staging fuel off j
      contents e tr c2 hcl

/-- Witness for C3 at a concrete input: three sources, chunk `2`, where the
primary `"c"` and the first fallback `"a"` fail and `"b"` succeeds. -/
theorem c3_failover_order_witness :
    (1 : Nat) ≤ (["a", "b", "c"] : List String).length ∧
    downloadChunkGo (fun u _ _ => if u = "b" then some [9] else none)
        ["a", "b", "c"] 2 0 5 =
      specTryInOrder (fun u _ _ => if u = "b" then some [9] else none) 0 5
        (specAttemptOrder ["a", "b", "c"] 2) ∧
    (downloadChunkGo (fun u _ _ => if u = "b" then some [9] else none)
        ["a", "b", "c"] 2 0 5).2 = ["c", "a", "b"] :=
  ⟨by decide,
   (c3_failover_order (fun u _ _ => if u = "b" then some [9] else none)
     ["a", "b", "c"] 2 0 5 (by decide)).1,
   by decide⟩

lemma allSourcesMatch_iff_chain (c : Bool) :
    ∀ l : List sourceFileMetadata,
      allSourcesMatchFileMetadata l c = true ↔
        List.Chain' (fun a b : sourceFileMetadata => a.fm.size = b.fm.size ∧
          a.fm.contentType = b.fm.contentType ∧
          (c = true → a.fm.eTag = b.fm.eTag)) l := by
  intro l
  induction l with
  | nil => simp [allSourcesMatchFileMetadata]
  | cons a rest ih =>
    cases rest with
    | nil => simp [allSourcesMatchFileMetadata]
    | cons b rest2 =>
      rw [allSourcesMatchFileMetadata, List.chain'_cons]
      by_cases h1 : a.fm.size ≠ b.fm.size ∨ a.fm.contentType ≠ b.fm.contentType
      · rw [if_pos h1]
        simp only [Bool.false_eq_true, false_iff]
        rintro ⟨⟨hs, hct, -⟩, -⟩
        tauto
      · rw [if_neg h1]
        push_neg at h1
        by_cases h2 : c = true ∧ a.fm.eTag ≠ b.fm.eTag
        · rw [if_pos h2]
          simp only [Bool.false_eq_true, false_iff]
          rintro ⟨⟨-, -, het⟩, -⟩
          exact h2.2 (het h2.1)
        · rw [if_neg h2]
          rw [ih]
          constructor
          · intro hch
            refine ⟨⟨h1.1, h1.2, ?_⟩, hch⟩
            intro hc
            by_contra hne
            exact h2 ⟨hc, hne⟩
          · rintro ⟨-, hch⟩
            exact hch

lemma probeSource_error (url : String) (lat : Nat) (resp : HeadResponse)
    (e : Err) (h : probeSource url lat resp = .error e) :
    (∃ code, e = .httpStatus code) ∨ e = .unknownContentLength ∨
      e = .partialRequestUnsupported := by
  rw [probeSource] at h
  split_ifs at h with h1 h2 h3
  · cases h
    exact Or.inl ⟨_, rfl⟩
  · cases h
    exact Or.inr (Or.inl rfl)
  · cases h
    exact Or.inr (Or.inr rfl)

lemma fetchFileMetadataFromSources_error (sourceUrls : List String)
    (head : Nat → HeadResponse) (lat : Nat → Nat) (arrival : List Nat)
    (e : Err)
    (h : fetchFileMetadataFromSources sourceUrls head lat arrival = .error e) :
    (∃ code, e = .httpStatus code) ∨ e = .unknownContentLength ∨
      e = .partialRequestUnsupported := by
  rw [fetchFileMetadataFromSources] at h
  cases hfind : ((List.range sourceUrls.length).map
      (fun k => probeSource (sourceUrls.getD k "") (lat k) (head k))).findSome?
        (fun r => match r with | .error e => some e | .ok _ => none) with
  | none =>
    simp only [hfind] at h
    cases h
  | some e' =>
    simp only [hfind] at h
    cases h
    rcases List.exists_of_findSome?_eq_some hfind with ⟨r, hr, hre⟩
    rcases List.mem_map.mp hr with ⟨k, hk, rfl⟩
    cases hps : probeSource (sourceUrls.getD k "") (lat k) (head k) with
    | ok m =>
      rw [hps] at hre
      cases hre
    | error e2 =>
      rw [hps] at hre
      cases hre
      exact probeSource_error _ _ _ _ hps

lemma downloadFileContents_error (fetch : String → Nat → Nat → Option Bytes)
    (connections : Nat) (sourceUrls : List String) (fm : fileMetadata)
    (staging : String) (fuel : Nat) (e : Err) (tr : List FsOp) (c2 : Bytes)
    (h : downloadFileContents fetch connections sourceUrls fm staging fuel =
      some (.err e, tr, c2)) :
    e = .failedChunkDownloadAllSources := by
  rw [downloadFileContents] at h
  cases hcs : chunkSizeGo fm.size connections with
  | none =>
    simp only [hcs] at h
    simp at h
  | some cs =>
    simp only [hcs] at h
    exact chunkLoop_error fetch sourceUrls fm.size cs staging fuel 0 0 [] e tr c2 h

lemma finishDownload_fst (checkETag : Bool) (eTag : String) (contents : Bytes)
    (md5f : Bytes → Bytes) (renameOk : Bool) (staging dest : String) :
    (finishDownload checkETag eTag contents md5f renameOk staging dest).1 = .ok ∨
    (finishDownload checkETag eTag contents md5f renameOk staging dest).1 =
      .err .eTagMismatch ∨
    (finishDownload checkETag eTag contents md5f renameOk staging dest).1 =
      .err .renameFailed := by
  rw [finishDownload]
  split_ifs <;> simp

lemma download_mismatch_iff (opts : Options) (sourceUrls : List String)
    (head : Nat → HeadResponse) (lat : Nat → Nat) (arrival : List Nat)
    (fetch : String → Nat → Nat → Option Bytes) (md5f : Bytes → Bytes)
    (renameOk : Bool) (fuel : Nat) :
    (∃ tr, DownloadGo opts sourceUrls head lat arrival fetch md5f renameOk fuel =
        some (.err .sourcesFileMismatch, tr)) ↔
      (1 ≤ sourceUrls.length ∧ ∃ metas,
        fetchFileMetadataFromSources sourceUrls head lat arrival = .ok metas ∧
        allSourcesMatchFileMetadata metas opts.CheckETag = false) := by
  constructor
  · rintro ⟨tr, h⟩
    rw [DownloadGo] at h
    by_cases hlen : sourceUrls.length = 0
    · rw [if_pos hlen] at h
      simp at h
    · rw [if_neg hlen] at h
      cases hfm : fetchFileMetadataFromSources sourceUrls head lat arrival with
      | error e =>
        simp only [hfm] at h
        have he : e = .sourcesFileMismatch := by
          simp only [Option.some.injEq, Prod.mk.injEq, DlOutcome.err.injEq] at h
          exact h.1
        rcases fetchFileMetadataFromSources_error sourceUrls head lat arrival e hfm
          with ⟨code, hc⟩ | hc | hc <;> rw [he] at hc <;> cases hc
      | ok metas =>
        simp only [hfm] at h
        by_cases hmm : allSourcesMatchFileMetadata metas opts.CheckETag = false
        · exact ⟨by omega, metas, rfl, hmm⟩
        · rw [if_neg hmm] at h
          cases metas with
          | nil => simp at h
          | cons fst rest =>
            cases hdf : downloadFileContents fetch opts.Connections
                (sourceUrlsSortedByEstLatency (fst :: rest)) fst.fm
                (opts.DestFilePath ++ suffixOngoingDownload) fuel with
            | none =>
              simp only [hdf] at h
              cases h
            | some res =>
              rcases res with ⟨o, tr2, contents⟩
              cases o with
              | goPanic =>
                simp only [hdf] at h
                simp at h
              | err e =>
                simp only [hdf] at h
                have he : e = .sourcesFileMismatch := by
                  simp only [Option.some.injEq, Prod.mk.injEq,
                    DlOutcome.err.injEq] at h
                  exact h.1
                have := downloadFileContents_error fetch opts.Connections
                  (sourceUrlsSortedByEstLatency (fst :: rest)) fst.fm
                  (opts.DestFilePath ++ suffixOngoingDownload) fuel e tr2
                  contents hdf
                rw [he] at this
                cases this
              | ok =>
                simp only [hdf] at h
                rcases finishDownload_fst opts.CheckETag fst.fm.eTag contents
                    md5f renameOk (opts.DestFilePath ++ suffixOngoingDownload)
                    opts.DestFilePath with hf | hf | hf <;>
                  simp only [hf, Option.some.injEq, Prod.mk.injEq] at h <;>
                  rcases h with ⟨h1, -⟩ <;> cases h1
  · rintro ⟨hlen, metas, hfm, hmm⟩
    refine ⟨[], ?_⟩
    rw [DownloadGo, if_neg (by omega), hfm]
    simp [hmm]

/-- **C4** (confirmed).  `allSourcesMatchFileMetadata` holds exactly when the
descriptors agree pairwise on `size`, on `content_type`, and — when ETag
checking is enabled — on `integrity_tag`; `Download` returns
`ErrSourcesFileMismatch` exactly when the probe phase succeeded and that
check fails; and the prober builds every accepted descriptor with
`content_type = ""` (the `fileMetadata` literal in the probe goroutine does
not set the field), which is therefore the value the comparison sees. -/
theorem c4_reconciler :
    (∀ (l : List sourceFileMetadata) (c : Bool),
      allSourcesMatchFileMetadata l c = true ↔
        ∀ x ∈ l, ∀ y ∈ l, x.fm.size = y.fm.size ∧
          x.fm.contentType = y.fm.contentType ∧
          (c = true → x.fm.eTag = y.fm.eTag))
  ∧ (∀ (url : String) (lat : Nat) (resp : HeadResponse)
      (m : sourceFileMetadata),
      probeSource url lat resp = .ok m → m.fm.contentType = "")
  ∧ (∀ (opts : Options) (sourceUrls : List String) (head : Nat → HeadResponse)
      (lat : Nat → Nat) (arrival : List Nat)
      (fetch : String → Nat → Nat → Option Bytes) (md5f : Bytes → Bytes)
      (renameOk : Bool) (fuel : Nat),
      (∃ tr, DownloadGo opts sourceUrls head lat arrival fetch md5f renameOk
          fuel = some (.err .sourcesFileMismatch, tr)) ↔
        (1 ≤ sourceUrls.length ∧ ∃ metas,
          fetchFileMetadataFromSources sourceUrls head lat arrival =
            .ok metas ∧
          allSourcesMatchFileMetadata metas opts.CheckETag = false)) := by
  refine ⟨?_, ?_, ?_⟩
  · intro l c
    rw [allSourcesMatch_iff_chain]
    have htrans : Transitive (fun a b : sourceFileMetadata =>
        a.fm.size = b.fm.size ∧ a.fm.contentType = b.fm.contentType ∧
        (c = true → a.fm.eTag = b.fm.eTag)) :=
      fun a b d hab hbd =>
        ⟨hab.1.trans hbd.1, hab.2.1.trans hbd.2.1,
          fun hc => (hab.2.2 hc).trans (hbd.2.2 hc)⟩
    have hsymm : Symmetric (fun a b : sourceFileMetadata =>
        a.fm.size = b.fm.size ∧ a.fm.contentType = b.fm.contentType ∧
        (c = true → a.fm.eTag = b.fm.eTag)) :=
      fun a b hab => ⟨hab.1.symm, hab.2.1.symm, fun hc => (hab.2.2 hc).symm⟩
    haveI : IsTrans sourceFileMetadata (fun a b : sourceFileMetadata =>
        a.fm.size = b.fm.size ∧ a.fm.contentType = b.fm.contentType ∧
        (c = true → a.fm.eTag = b.fm.eTag)) :=
      ⟨fun a b d hab hbd => htrans hab hbd⟩
    rw [List.chain'_iff_pairwise]
    constructor
    · intro hp x hx y hy
      by_cases hxy : x = y
      · subst hxy
        exact ⟨rfl, rfl, fun _ => rfl⟩
      · exact hp.forall hsymm hx hy hxy
    · intro hall
      exact List.pairwise_of_forall_mem_list (fun x hx y hy => hall x hx y hy)
  · intro url lat resp m h
    rw [probeSource] at h
    split_ifs at h with h1 h2 h3
    cases h
    rfl
  · intro opts sourceUrls head lat arrival fetch md5f renameOk fuel
    exact download_mismatch_iff opts sourceUrls head lat arrival fetch md5f
      renameOk fuel

/-- Witness for C4: a concretely probed source yields a descriptor whose
`content_type` is the empty string. -/
theorem c4_reconciler_witness :
    (⟨⟨5, "", ""⟩, "u", 0⟩ : sourceFileMetadata).fm.contentType = "" :=
  c4_reconciler.2.1 "u" 0 ⟨200, 5, "bytes", "", ""⟩ ⟨⟨5, "", ""⟩, "u", 0⟩ (by rfl)

lemma bubbleInsertGo_perm (x : sourceFileMetadata) :
    ∀ l : List sourceFileMetadata, List.Perm (bubbleInsertGo x l) (x :: l) := by
  intro l
  induction l with
  | nil => rfl
  | cons y ys ih =>
    rw [bubbleInsertGo]
    by_cases hlt : x.estLatency < y.estLatency
    · rw [if_pos hlt]
    · rw [if_neg hlt]
      exact (ih.cons y).trans (List.Perm.swap x y ys)

lemma foldl_bubbleInsertGo_perm :
    ∀ (l acc : List sourceFileMetadata),
      List.Perm (l.foldl (fun acc x => bubbleInsertGo x acc) acc) (l ++ acc) := by
  intro l
  induction l with
  | nil => intro acc; simp
  | cons x l ih =>
    intro acc
    simp only [List.foldl_cons, List.cons_append]
    refine (ih (bubbleInsertGo x acc)).trans ?_
    refine (List.Perm.append_left l (bubbleInsertGo_perm x acc)).trans ?_
    exact List.perm_middle

lemma sortSliceGo_perm (l : List sourceFileMetadata) :
    List.Perm (sortSliceGo l) l := by
  have := foldl_bubbleInsertGo_perm l []
  rw [List.append_nil] at this
  exact this

lemma bubbleInsertGo_pairwise (x : sourceFileMetadata) :
    ∀ l : List sourceFileMetadata,
      List.Pairwise (fun a b => a.estLatency ≤ b.estLatency) l →
      List.Pairwise (fun a b => a.estLatency ≤ b.estLatency)
        (bubbleInsertGo x l) := by
  intro l
  induction l with
  | nil => intro _; simp [bubbleInsertGo]
  | cons y ys ih =>
    intro hp
    rw [List.pairwise_cons] at hp
    rw [bubbleInsertGo]
    by_cases hlt : x.estLatency < y.estLatency
    · rw [if_pos hlt]
      rw [List.pairwise_cons]
      refine ⟨?_, List.pairwise_cons.mpr hp⟩
      intro z hz
      rcases List.mem_cons.mp hz with rfl | hz2
      · omega
      · have := hp.1 z hz2
        omega
    · rw [if_neg hlt]
      rw [List.pairwise_cons]
      refine ⟨?_, ih hp.2⟩
      intro z hz
      have hz3 : z ∈ x :: ys := (bubbleInsertGo_perm x ys).mem_iff.mp hz
      rcases List.mem_cons.mp hz3 with rfl | hz4
      · omega
      · exact hp.1 z hz4

lemma sortSliceGo_pairwise (l : List sourceFileMetadata) :
    List.Pairwise (fun a b => a.estLatency ≤ b.estLatency) (sortSliceGo l) := by
  have hgen : ∀ (m acc : List sourceFileMetadata),
      List.Pairwise (fun a b => a.estLatency ≤ b.estLatency) acc →
      List.Pairwise (fun a b => a.estLatency ≤ b.estLatency)
        (m.foldl (fun acc x => bubbleInsertGo x acc) acc) := by
    intro m
    induction m with
    | nil => intro acc h; simpa using h
    | cons x m ih =>
      intro acc h
      simp only [List.foldl_cons]
      exact ih (bubbleInsertGo x acc) (bubbleInsertGo_pairwise x acc h)
  exact hgen l [] (by simp)

/-- **C5** (corrected).  `sourceUrlsSortedByEstLatency` returns a permutation
of the probed sources' URLs sorted by non-decreasing estimated latency — the
part of the claim that is `sort.Slice`'s documented contract and holds at
every length.  The claimed stable tie-breaking by original input order does
not hold: Go's `sort.Slice` documents no stability guarantee, and the slice
being sorted is filled in probe-goroutine completion order over a shared
channel, not in input-URL order, so equal-latency sources need not keep
their input order — see the counterexample, whose two-element slice Go
provably sorts with the insertion sort modelled here. -/
theorem c5_prioritizer (l : List sourceFileMetadata) :
    List.Perm (sourceUrlsSortedByEstLatency l) (l.map (fun sfm => sfm.url))
  ∧ List.Pairwise (fun a b => a.estLatency ≤ b.estLatency) (sortSliceGo l)
  ∧ sourceUrlsSortedByEstLatency l = (sortSliceGo l).map (fun sfm => sfm.url) := by
  refine ⟨?_, sortSliceGo_pairwise l, rfl⟩
  exact (sortSliceGo_perm l).map (fun sfm => sfm.url)

/-- Counterexample for C5 as stated: two sources `"u1", "u2"` (in that input
order) with equal estimated latency `5`; the probe goroutines deliver their
results over the shared channel in the order `u2, u1` (a legitimate
schedule: `[1, 0]` is a permutation of the probe indices), and the
prioritized list comes out `["u2", "u1"]` — the equal-latency tie does not
follow the original input-URL order `["u1", "u2"]`. -/
theorem c5_tie_order_not_input_order :
    fetchFileMetadataFromSources ["u1", "u2"]
        (fun _ => ⟨200, 5, "bytes", "", ""⟩) (fun _ => 5) [1, 0] =
      .ok [⟨⟨5, "", ""⟩, "u2", 5⟩, ⟨⟨5, "", ""⟩, "u1", 5⟩]
  ∧ List.Perm [1, 0] (List.range 2)
  ∧ (⟨⟨5, "", ""⟩, "u2", 5⟩ : sourceFileMetadata).estLatency =
      (⟨⟨5, "", ""⟩, "u1", 5⟩ : sourceFileMetadata).estLatency
  ∧ sourceUrlsSortedByEstLatency
      [⟨⟨5, "", ""⟩, "u2", 5⟩, ⟨⟨5, "", ""⟩, "u1", 5⟩] = ["u2", "u1"]
  ∧ ["u2", "u1"] ≠ ["u1", "u2"] := by
  refine ⟨by rfl, by decide, by rfl, by rfl, by decide⟩

lemma hexChar_range (n : Nat) (h : n < 16) :
    ('0' ≤ hexChar n ∧ hexChar n ≤ '9') ∨ ('a' ≤ hexChar n ∧ hexChar n ≤ 'f') := by
  interval_cases n <;> decide

lemma hexEncode_chars (bs : Bytes) (hb : ∀ b ∈ bs, b < 256) :
    ∀ ch ∈ (hexEncode bs).data,
      ('0' ≤ ch ∧ ch ≤ '9') ∨ ('a' ≤ ch ∧ ch ≤ 'f') := by
  intro ch hch
  rw [hexEncode] at hch
  have hdata : (String.mk ((bs.map hexByte).flatten)).data =
      (bs.map hexByte).flatten := rfl
  rw [hdata] at hch
  rcases List.mem_flatten.mp hch with ⟨chunk, hchunk, hml⟩
  rcases List.mem_map.mp hchunk with ⟨b, hbmem, rfl⟩
  rw [hexByte] at hml
  have hb256 := hb b hbmem
  rcases List.mem_cons.mp hml with rfl | hml2
  · exact hexChar_range (b / 16) (by omega)
  · rcases List.mem_cons.mp hml2 with rfl | hml3
    · exact hexChar_range (b % 16) (by omega)
    · cases hml3

/-- **C6** (confirmed).  In the post-chunk tail of `Download`
(`finishDownload`), the MD5 read of the staged file happens iff `CheckETag`
is set and the reconciled tag is non-empty; in that case the digest — the
lower-case hexadecimal encoding of the file's MD5, every character a decimal
digit or `a`–`f` — is compared by exact (case-sensitive) string equality
with the tag, a mismatch returns `ErrETagMismatch`, and no rename of the
staging file onto the destination occurs on that path. -/
theorem c6_integrity (checkETag : Bool) (eTag : String) (contents : Bytes)
    (md5f : Bytes → Bytes) (renameOk : Bool) (staging destFilePath : String)
    (h256 : ∀ b ∈ md5f contents, b < 256) :
    ((FsOp.md5Read staging ∈
        (finishDownload checkETag eTag contents md5f renameOk staging
          destFilePath).2) ↔
      (checkETag = true ∧ 0 < eTag.length))
  ∧ (checkETag = true → 0 < eTag.length → getMD5Hash md5f contents ≠ eTag →
      (finishDownload checkETag eTag contents md5f renameOk staging
          destFilePath).1 = .err .eTagMismatch ∧
        FsOp.renameF staging destFilePath ∉
          (finishDownload checkETag eTag contents md5f renameOk staging
            destFilePath).2)
  ∧ (∀ ch ∈ (getMD5Hash md5f contents).data,
      ('0' ≤ ch ∧ ch ≤ '9') ∨ ('a' ≤ ch ∧ ch ≤ 'f')) := by
  refine ⟨?_, ?_, ?_⟩
  · rw [finishDownload]
    by_cases h1 : checkETag = true ∧ 0 < eTag.length
    · rw [if_pos h1]
      split_ifs with h2 <;> simp [h1]
    · rw [if_neg h1]
      split_ifs with h2 <;> simp [h1]
  · intro hc hlen hne
    rw [finishDownload, if_pos ⟨hc, hlen⟩, if_pos hne]
    exact ⟨rfl, by simp⟩
  · exact hexEncode_chars (md5f contents) h256

/-- Witness for C6 at a concrete instance: `CheckETag = true`, tag `"zz"`,
a dummy MD5 oracle returning sixteen zero bytes — the digest
`"000...0"` differs from the tag, `ErrETagMismatch` is returned, and no
rename appears in the trace. -/
theorem c6_integrity_witness :
    (finishDownload true "zz" [] (fun _ => List.replicate 16 0) true
        "s.download" "s").1 = .err .eTagMismatch ∧
      FsOp.renameF "s.download" "s" ∉
        (finishDownload true "zz" [] (fun _ => List.replicate 16 0) true
          "s.download" "s").2 :=
  (c6_integrity true "zz" [] (fun _ => List.replicate 16 0) true
      "s.download" "s"
      (by intro b hbmem; rw [List.eq_of_mem_replicate hbmem]; omega)).2.1
    rfl (by decide) (by decide)

/-- **C7** (corrected).  During a probe (under Go's invariant that
`ContentLength` is `-1` or non-negative, so "absent or negative" coincides
with `= -1`), the source is rejected iff the HEAD status is not `200`, the
content length is unknown, or `Accept-Ranges` is absent/empty or is
*exactly* the string `none` — the comparison is case-sensitive, not
case-insensitive as claimed.  Moreover only the `Accept-Ranges` rejection
surfaces as `ErrPartialRequestUnsupported`; the content-length rejection is
the distinct `ErrUnknownContentLength`. -/
theorem c7_probe_verdicts (url : String) (lat : Nat) (resp : HeadResponse)
    (hcl : -1 ≤ resp.contentLength) :
    (resp.contentLength < 0 ↔ resp.contentLength = -1)
  ∧ (resp.statusCode ≠ 200 →
      probeSource url lat resp = .error (.httpStatus resp.statusCode))
  ∧ (resp.statusCode = 200 → resp.contentLength = -1 →
      probeSource url lat resp = .error .unknownContentLength ∧
        Err.unknownContentLength ≠ Err.partialRequestUnsupported)
  ∧ (resp.statusCode = 200 → resp.contentLength ≠ -1 →
      (resp.acceptRanges.length = 0 ∨ resp.acceptRanges = "none") →
      probeSource url lat resp = .error .partialRequestUnsupported)
  ∧ (resp.statusCode = 200 → resp.contentLength ≠ -1 →
      ¬(resp.acceptRanges.length = 0 ∨ resp.acceptRanges = "none") →
      probeSource url lat resp = .ok
        ⟨⟨resp.contentLength.toNat, "", trimQuotes resp.eTag⟩, url, lat⟩) := by
  refine ⟨by omega, ?_, ?_, ?_, ?_⟩
  · intro h1
    rw [probeSource, if_pos h1]
  · intro h1 h2
    rw [probeSource, if_neg (by omega), if_pos h2]
    exact ⟨rfl, by decide⟩
  · intro h1 h2 h3
    rw [probeSource, if_neg (by omega), if_neg h2, if_pos h3]
  · intro h1 h2 h3
    rw [probeSource, if_neg (by omega), if_neg h2, if_neg h3]

/-- Witness for C7 at a concrete response: status `200`, `Content-Length`
`5`, `Accept-Ranges: bytes` — accepted, with the descriptor built from the
response. -/
theorem c7_probe_verdicts_witness :
    probeSource "u" 7 ⟨200, 5, "bytes", "\"tag\"", "text/plain"⟩ =
      .ok ⟨⟨5, "", "tag"⟩, "u", 7⟩ :=
  ((c7_probe_verdicts "u" 7 ⟨200, 5, "bytes", "\"tag\"", "text/plain"⟩
      (by decide)).2.2.2.2 rfl (by decide) (by decide)).trans (by rfl)

/-- Counterexample for C7 as stated: a response whose `Accept-Ranges` value
is `"None"` — equal to `none` case-insensitively — is *accepted* by the
prober (the code compares with `==`, case-sensitively); and the
content-length rejection surfaces as `ErrUnknownContentLength`, which is not
the partial-request-unsupported error value. -/
theorem c7_none_case_sensitive :
    (probeSource "u" 0 ⟨200, 5, "None", "", ""⟩ =
      .ok ⟨⟨5, "", ""⟩, "u", 0⟩)
  ∧ "None".data.map Char.toLower = "none".data
  ∧ probeSource "u" 0 ⟨200, -1, "bytes", "", ""⟩ =
      .error .unknownContentLength
  ∧ Err.unknownContentLength ≠ Err.partialRequestUnsupported := by
  refine ⟨by rfl, by decide, by rfl, by decide⟩

lemma chunkLoop_trace (fetch : String → Nat → Nat → Option Bytes)
    (sourceUrls : List String) (S chunkSize : Nat) (staging : String) :
    ∀ (fuel offset i : Nat) (contents : Bytes) (o : DlOutcome)
      (tr : List FsOp) (c2 : Bytes),
      chunkLoop fetch sourceUrls S chunkSize staging fuel offset i contents =
        some (o, tr, c2) →
      ∀ op ∈ tr, ∃ off data, op = FsOp.writeAt staging off data := by
  intro fuel
  induction fuel with
  | zero =>
    intro offset i contents o tr c2 h op hop
    rw [chunkLoop.eq_def] at h
    by_cases hlt : offset < S
    · simp [hlt] at h
    · simp only [hlt, if_false, Option.some.injEq, Prod.mk.injEq] at h
      rcases h with ⟨-, htr, -⟩
      rw [← htr] at hop
      cases hop
  | succ f ih =>
    intro offset i contents o tr c2 h op hop
    rw [chunkLoop.eq_def] at h
    by_cases hlt : offset < S
    · simp only [hlt, if_true] at h
      by_cases hlen : sourceUrls.length = 0
      · rw [if_pos hlen] at h
        simp only [Option.some.injEq, Prod.mk.injEq] at h
        rcases h with ⟨-, htr, -⟩
        rw [← htr] at hop
        cases hop
      · simp only [hlen, if_false] at h
        cases hdc : (downloadChunkGo fetch sourceUrls i offset
            (Nat.min (offset + chunkSize) S)).1 with
        | error e =>
          simp only [hdc, Option.some.injEq, Prod.mk.injEq] at h
          rcases h with ⟨-, htr, -⟩
          rw [← htr] at hop
          cases hop
        | ok chunk =>
          simp only [hdc] at h
          cases hrec : chunkLoop fetch sourceUrls S chunkSize staging f
              (offset + chunkSize) (i + 1)
              (writeAtBytes contents offset chunk) with
          | none =>
            simp only [hrec] at h
            cases h
          | some res =>
            rcases res with ⟨o', tr', c'⟩
            simp only [hrec, Option.some.injEq, Prod.mk.injEq] at h
            rcases h with ⟨-, htr, -⟩
            rw [← htr] at hop
            rcases List.mem_cons.mp hop with rfl | hop2
            · exact ⟨offset, chunk, rfl⟩
            · exact ih (offset + chunkSize) (i + 1)
                (writeAtBytes contents offset chunk) o' tr' c' hrec op hop2
    · simp only [hlt, if_false, Option.some.injEq, Prod.mk.injEq] at h
      rcases h with ⟨-, htr, -⟩
      rw [← htr] at hop
      cases hop

lemma chunkLoop_goPanic (fetch : String → Nat → Nat → Option Bytes)
    (sourceUrls : List String) (S chunkSize : Nat) (staging : String) :
    ∀ (fuel offset i : Nat) (contents : Bytes) (tr : List FsOp) (c2 : Bytes),
      chunkLoop fetch sourceUrls S chunkSize staging fuel offset i contents =
        some (.goPanic, tr, c2) →
      sourceUrls.length = 0 := by
  intro fuel
  induction fuel with
  | zero =>
    intro offset i contents tr c2 h
    rw [chunkLoop.eq_def] at h
    by_cases hlt : offset < S
    · simp [hlt] at h
    · simp [hlt] at h
  | succ f ih =>
    intro offset i contents tr c2 h
    rw [chunkLoop.eq_def] at h
    by_cases hlt : offset < S
    · simp only [hlt, if_true] at h
      by_cases hlen : sourceUrls.length = 0
      · exact hlen
      · simp only [hlen, if_false] at h
        cases hdc : (downloadChunkGo fetch sourceUrls i offset
            (Nat.min (offset + chunkSize) S)).1 with
        | error e => simp [hdc] at h
        | ok chunk =>
          simp only [hdc] at h
          cases hrec : chunkLoop fetch sourceUrls S chunkSize staging f
              (offset + chunkSize) (i + 1)
              (writeAtBytes contents offset chunk) with
          | none =>
            simp only [hrec] at h
            cases h
          | some res =>
            rcases res with ⟨o', tr', c'⟩
            simp only [hrec, Option.some.injEq, Prod.mk.injEq] at h
            have ho : o' = .goPanic := h.1
            exact ih (offset + chunkSize) (i + 1)
              (writeAtBytes contents offset chunk) tr' c' (ho ▸ hrec)
    · simp [hlt] at h

lemma chunkSizeGo_none (size connections : Nat)
    (h : chunkSizeGo size connections = none) : connections = 0 := by
  rw [chunkSizeGo] at h
  by_cases hc : connections = 0
  · exact hc
  · rw [if_neg hc] at h
    cases h

lemma downloadFileContents_goPanic (fetch : String → Nat → Nat → Option Bytes)
    (connections : Nat) (sourceUrls : List String) (fm : fileMetadata)
    (staging : String) (fuel : Nat) (tr : List FsOp) (c2 : Bytes)
    (h : downloadFileContents fetch connections sourceUrls fm staging fuel =
      some (.goPanic, tr, c2)) :
    connections = 0 ∨ sourceUrls.length = 0 := by
  rw [downloadFileContents] at h
  cases hcs : chunkSizeGo fm.size connections with
  | none => exact Or.inl (chunkSizeGo_none _ _ hcs)
  | some cs =>
    simp only [hcs] at h
    exact Or.inr (chunkLoop_goPanic fetch sourceUrls fm.size cs staging fuel
      0 0 [] tr c2 h)

lemma finishDownload_ok_trace (checkETag : Bool) (eTag : String)
    (contents : Bytes) (md5f : Bytes → Bytes) (renameOk : Bool)
    (staging dest : String)
    (h : (finishDownload checkETag eTag contents md5f renameOk staging
      dest).1 = .ok) :
    (finishDownload checkETag eTag contents md5f renameOk staging dest).2 =
        [.md5Read staging, .renameF staging dest, .closeF staging] ∨
    (finishDownload checkETag eTag contents md5f renameOk staging dest).2 =
        [.renameF staging dest, .closeF staging] := by
  rw [finishDownload] at h ⊢
  split_ifs at h ⊢ <;> simp_all

lemma finishDownload_err_trace (checkETag : Bool) (eTag : String)
    (contents : Bytes) (md5f : Bytes → Bytes) (renameOk : Bool)
    (staging dest : String) (e : Err)
    (h : (finishDownload checkETag eTag contents md5f renameOk staging
      dest).1 = .err e) :
    (finishDownload checkETag eTag contents md5f renameOk staging dest).2 =
        [.md5Read staging, .closeF staging] ∨
    (finishDownload checkETag eTag contents md5f renameOk staging dest).2 =
        [.closeF staging] := by
  rw [finishDownload] at h ⊢
  split_ifs at h ⊢ <;> simp_all

lemma staging_ne_dest (dest : String) : dest ++ suffixOngoingDownload ≠ dest := by
  intro h
  have hlen := congrArg String.length h
  rw [String.length_append] at hlen
  have hsuf : suffixOngoingDownload.length = 9 := by decide
  omega

lemma downloadFileContents_trace (fetch : String → Nat → Nat → Option Bytes)
    (connections : Nat) (sourceUrls : List String) (fm : fileMetadata)
    (staging : String) (fuel : Nat) (o : DlOutcome) (tr : List FsOp)
    (c2 : Bytes)
    (h : downloadFileContents fetch connections sourceUrls fm staging fuel =
      some (o, tr, c2)) :
    ∀ op ∈ tr, ∃ off data, op = FsOp.writeAt staging off data := by
  rw [downloadFileContents] at h
  cases hcs : chunkSizeGo fm.size connections with
  | none =>
    simp only [hcs, Option.some.injEq, Prod.mk.injEq] at h
    rcases h with ⟨-, htr, -⟩
    rw [← htr]
    intro op hop
    cases hop
  | some cs =>
    simp only [hcs] at h
    exact chunkLoop_trace fetch sourceUrls fm.size cs staging fuel 0 0 [] o
      tr c2 h

lemma finishDownload_rename_mem (checkETag : Bool) (eTag : String)
    (contents : Bytes) (md5f : Bytes → Bytes) (renameOk : Bool)
    (staging dest a b : String)
    (h : FsOp.renameF a b ∈
      (finishDownload checkETag eTag contents md5f renameOk staging dest).2) :
    (finishDownload checkETag eTag contents md5f renameOk staging dest).1 =
      .ok := by
  rw [finishDownload] at h ⊢
  split_ifs at h ⊢ <;> simp_all

/-- **C8** (corrected).  In every successful `Download` run the close of the
staging file is the *last* filesystem operation — Go's deferred
`File.Close` runs when `Download` returns — so it happens after the digest
computation and after the rename, not before them as the claim states:
the trace is some prefix containing the rename (and the digest read when
performed) followed by the close, and no close occurs in that prefix. -/
theorem c8_close_after_digest_and_rename (opts : Options)
    (sourceUrls : List String) (head : Nat → HeadResponse) (lat : Nat → Nat)
    (arrival : List Nat) (fetch : String → Nat → Nat → Option Bytes)
    (md5f : Bytes → Bytes) (renameOk : Bool) (fuel : Nat) (tr : List FsOp)
    (h : DownloadGo opts sourceUrls head lat arrival fetch md5f renameOk fuel =
      some (.ok, tr)) :
    ∃ tr', tr = tr' ++
        [FsOp.closeF (opts.DestFilePath ++ suffixOngoingDownload)] ∧
      FsOp.renameF (opts.DestFilePath ++ suffixOngoingDownload)
        opts.DestFilePath ∈ tr' ∧
      ∀ p, FsOp.closeF p ∉ tr' := by
  rw [DownloadGo] at h
  by_cases hlen : sourceUrls.length = 0
  · rw [if_pos hlen] at h
    simp at h
  · rw [if_neg hlen] at h
    cases hfm : fetchFileMetadataFromSources sourceUrls head lat arrival with
    | error e =>
      simp only [hfm] at h
      simp at h
    | ok metas =>
      simp only [hfm] at h
      by_cases hmm : allSourcesMatchFileMetadata metas opts.CheckETag = false
      · rw [if_pos hmm] at h
        simp at h
      · rw [if_neg hmm] at h
        cases metas with
        | nil => simp at h
        | cons fst rest =>
          cases hdf : downloadFileContents fetch opts.Connections
              (sourceUrlsSortedByEstLatency (fst :: rest)) fst.fm
              (opts.DestFilePath ++ suffixOngoingDownload) fuel with
          | none =>
            simp only [hdf] at h
            cases h
          | some res =>
            rcases res with ⟨o, tr2, contents⟩
            cases o with
            | goPanic =>
              simp only [hdf] at h
              simp at h
            | err e =>
              simp only [hdf] at h
              simp at h
            | ok =>
              simp only [hdf] at h
              simp only [Option.some.injEq, Prod.mk.injEq] at h
              have hfst := h.1
              have htr := h.2.symm
              have hwrites := downloadFileContents_trace fetch opts.Connections
                (sourceUrlsSortedByEstLatency (fst :: rest)) fst.fm
                (opts.DestFilePath ++ suffixOngoingDownload) fuel .ok tr2
                contents hdf
              rcases finishDownload_ok_trace opts.CheckETag fst.fm.eTag
                  contents md5f renameOk
                  (opts.DestFilePath ++ suffixOngoingDownload)
                  opts.DestFilePath hfst with hfin | hfin
              · refine ⟨FsOp.createF (opts.DestFilePath ++
                    suffixOngoingDownload) :: tr2 ++
                    [FsOp.md5Read (opts.DestFilePath ++ suffixOngoingDownload),
                     FsOp.renameF (opts.DestFilePath ++ suffixOngoingDownload)
                       opts.DestFilePath], ?_, ?_, ?_⟩
                · rw [htr, hfin]
                  simp
                · simp
                · intro p hp
                  simp only [List.mem_cons, List.mem_append] at hp
                  rcases hp with (h1 | h1) | h1
                  · cases h1
                  · rcases hwrites _ h1 with ⟨off, data, heq⟩
                    cases heq
                  · simp at h1
              · refine ⟨FsOp.createF (opts.DestFilePath ++
                    suffixOngoingDownload) :: tr2 ++
                    [FsOp.renameF (opts.DestFilePath ++ suffixOngoingDownload)
                       opts.DestFilePath], ?_, ?_, ?_⟩
                · rw [htr, hfin]
                  simp
                · simp
                · intro p hp
                  simp only [List.mem_cons, List.mem_append] at hp
                  rcases hp with (h1 | h1) | h1
                  · cases h1
                  · rcases hwrites _ h1 with ⟨off, data, heq⟩
                    cases heq
                  · simp at h1

/-- Witness for C8: a concrete successful one-chunk download; its trace is
create, write, rename, close — with the close last. -/
theorem c8_close_witness :
    ∃ tr', [FsOp.createF "d.download", FsOp.writeAt "d.download" 0 [7, 8],
        FsOp.renameF "d.download" "d", FsOp.closeF "d.download"] = tr' ++
        [FsOp.closeF ((⟨1, 10, false, "d"⟩ : Options).DestFilePath ++
          suffixOngoingDownload)] ∧
      FsOp.renameF ((⟨1, 10, false, "d"⟩ : Options).DestFilePath ++
          suffixOngoingDownload)
        (⟨1, 10, false, "d"⟩ : Options).DestFilePath ∈ tr' ∧
      ∀ p, FsOp.closeF p ∉ tr' :=
  c8_close_after_digest_and_rename ⟨1, 10, false, "d"⟩ ["u"]
    (fun _ => ⟨200, 2, "bytes", "", ""⟩) (fun _ => 0) [0]
    (fun _ _ _ => some [7, 8]) (fun _ => []) true 5
    [FsOp.createF "d.download", FsOp.writeAt "d.download" 0 [7, 8],
     FsOp.renameF "d.download" "d", FsOp.closeF "d.download"] (by rfl)

/-- Counterexample for C8 as stated: in this concrete successful run the
rename (index 2 of the trace) happens before the close (index 3), so the
close does not precede the rename. -/
theorem c8_close_not_before_rename :
    DownloadGo ⟨1, 10, false, "d"⟩ ["u"] (fun _ => ⟨200, 2, "bytes", "", ""⟩)
        (fun _ => 0) [0] (fun _ _ _ => some [7, 8]) (fun _ => []) true 5 =
      some (.ok, [FsOp.createF "d.download",
        FsOp.writeAt "d.download" 0 [7, 8],
        FsOp.renameF "d.download" "d", FsOp.closeF "d.download"])
  ∧ [FsOp.createF "d.download", FsOp.writeAt "d.download" 0 [7, 8],
      FsOp.renameF "d.download" "d",
      FsOp.closeF "d.download"].get? 2 = some (FsOp.renameF "d.download" "d")
  ∧ [FsOp.createF "d.download", FsOp.writeAt "d.download" 0 [7, 8],
      FsOp.renameF "d.download" "d",
      FsOp.closeF "d.download"].get? 3 = some (FsOp.closeF "d.download") := by
  refine ⟨by rfl, by rfl, by rfl⟩

lemma modifiesPath_staging_ops (dest : String) :
    modifiesPath (FsOp.createF (dest ++ suffixOngoingDownload)) dest = false ∧
    (∀ off data, modifiesPath
      (FsOp.writeAt (dest ++ suffixOngoingDownload) off data) dest = false) ∧
    (∀ p, modifiesPath (FsOp.md5Read p) dest = false) ∧
    (∀ p, modifiesPath (FsOp.closeF p) dest = false) := by
  have hne : ((dest ++ suffixOngoingDownload) == dest) = false :=
    beq_eq_false_iff_ne.mpr (staging_ne_dest dest)
  exact ⟨hne, fun off data => hne, fun p => rfl, fun p => rfl⟩

/-- **C9** (confirmed).  Whenever a (modelled) `Download` call returns an
error, no operation in its filesystem trace creates or modifies the file at
the destination path — every mutating operation targets only the staging
path `DestFilePath ++ ".download"`, which differs from `DestFilePath`; and a
successful rename onto the destination occurs in the trace only when the
whole call returns success, i.e. after probing, reconciliation, chunk
download and (when enabled) integrity verification have all succeeded. -/
theorem c9_error_leaves_dest_untouched (opts : Options)
    (sourceUrls : List String) (head : Nat → HeadResponse) (lat : Nat → Nat)
    (arrival : List Nat) (fetch : String → Nat → Nat → Option Bytes)
    (md5f : Bytes → Bytes) (renameOk : Bool) (fuel : Nat) (o : DlOutcome)
    (tr : List FsOp)
    (h : DownloadGo opts sourceUrls head lat arrival fetch md5f renameOk fuel =
      some (o, tr)) :
    (∀ e, o = .err e →
      ∀ op ∈ tr, modifiesPath op opts.DestFilePath = false)
  ∧ (FsOp.renameF (opts.DestFilePath ++ suffixOngoingDownload)
      opts.DestFilePath ∈ tr → o = .ok)
  ∧ opts.DestFilePath ++ suffixOngoingDownload ≠ opts.DestFilePath := by
  have hmods := modifiesPath_staging_ops opts.DestFilePath
  refine ⟨?_, ?_, staging_ne_dest opts.DestFilePath⟩
  all_goals
    rw [DownloadGo] at h
    by_cases hlen : sourceUrls.length = 0
  case pos =>
    rw [if_pos hlen] at h
    simp only [Option.some.injEq, Prod.mk.injEq] at h
    intro e _ op hop
    rw [← h.2] at hop
    cases hop
  case neg =>
    rw [if_neg hlen] at h
    cases hfm : fetchFileMetadataFromSources sourceUrls head lat arrival with
    | error e0 =>
      simp only [hfm, Option.some.injEq, Prod.mk.injEq] at h
      intro e _ op hop
      rw [← h.2] at hop
      cases hop
    | ok metas =>
      simp only [hfm] at h
      by_cases hmm : allSourcesMatchFileMetadata metas opts.CheckETag = false
      · rw [if_pos hmm] at h
        simp only [Option.some.injEq, Prod.mk.injEq] at h
        intro e _ op hop
        rw [← h.2] at hop
        cases hop
      · rw [if_neg hmm] at h
        cases metas with
        | nil =>
          simp only [Option.some.injEq, Prod.mk.injEq] at h
          intro e _ op hop
          rw [← h.2] at hop
          cases hop
        | cons fst rest =>
          cases hdf : downloadFileContents fetch opts.Connections
              (sourceUrlsSortedByEstLatency (fst :: rest)) fst.fm
              (opts.DestFilePath ++ suffixOngoingDownload) fuel with
          | none =>
            simp only [hdf] at h
            cases h
          | some res =>
            rcases res with ⟨o2, tr2, contents⟩
            have hwrites := downloadFileContents_trace fetch opts.Connections
              (sourceUrlsSortedByEstLatency (fst :: rest)) fst.fm
              (opts.DestFilePath ++ suffixOngoingDownload) fuel o2 tr2
              contents hdf
            cases o2 with
            | goPanic =>
              simp only [hdf, Option.some.injEq, Prod.mk.injEq] at h
              intro e he
              rw [← h.1] at he
              cases he
            | err e0 =>
              simp only [hdf, Option.some.injEq, Prod.mk.injEq] at h
              intro e _ op hop
              rw [← h.2] at hop
              rcases List.mem_cons.mp hop with rfl | hop2
              · exact hmods.1
              · rcases List.mem_append.mp hop2 with hop3 | hop3
                · rcases hwrites _ hop3 with ⟨off, data, rfl⟩
                  exact hmods.2.1 off data
                · rcases List.mem_cons.mp hop3 with rfl | hop4
                  · exact hmods.2.2.2 _
                  · cases hop4
            | ok =>
              simp only [hdf, Option.some.injEq, Prod.mk.injEq] at h
              intro e he
              have hfst : (finishDownload opts.CheckETag fst.fm.eTag contents
                  md5f renameOk (opts.DestFilePath ++ suffixOngoingDownload)
                  opts.DestFilePath).1 = .err e := by
                rw [h.1, he]
              intro op hop
              rw [← h.2] at hop
              rcases List.mem_cons.mp hop with rfl | hop2
              · exact hmods.1
              · rcases List.mem_append.mp hop2 with hop3 | hop3
                · rcases hwrites _ hop3 with ⟨off, data, rfl⟩
                  exact hmods.2.1 off data
                · rcases finishDownload_err_trace opts.CheckETag fst.fm.eTag
                      contents md5f renameOk
                      (opts.DestFilePath ++ suffixOngoingDownload)
                      opts.DestFilePath e hfst with hfin | hfin
                  · rw [hfin] at hop3
                    rcases List.mem_cons.mp hop3 with rfl | hop4
                    · exact hmods.2.2.1 _
                    · rcases List.mem_cons.mp hop4 with rfl | hop5
                      · exact hmods.2.2.2 _
                      · cases hop5
                  · rw [hfin] at hop3
                    rcases List.mem_cons.mp hop3 with rfl | hop4
                    · exact hmods.2.2.2 _
                    · cases hop4
  case pos =>
    rw [if_pos hlen] at h
    simp only [Option.some.injEq, Prod.mk.injEq] at h
    intro hmem
    rw [← h.2] at hmem
    cases hmem
  case neg =>
    rw [if_neg hlen] at h
    cases hfm : fetchFileMetadataFromSources sourceUrls head lat arrival with
    | error e0 =>
      simp only [hfm, Option.some.injEq, Prod.mk.injEq] at h
      intro hmem
      rw [← h.2] at hmem
      cases hmem
    | ok metas =>
      simp only [hfm] at h
      by_cases hmm : allSourcesMatchFileMetadata metas opts.CheckETag = false
      · rw [if_pos hmm] at h
        simp only [Option.some.injEq, Prod.mk.injEq] at h
        intro hmem
        rw [← h.2] at hmem
        cases hmem
      · rw [if_neg hmm] at h
        cases metas with
        | nil =>
          simp only [Option.some.injEq, Prod.mk.injEq] at h
          intro hmem
          rw [← h.2] at hmem
          cases hmem
        | cons fst rest =>
          cases hdf : downloadFileContents fetch opts.Connections
              (sourceUrlsSortedByEstLatency (fst :: rest)) fst.fm
              (opts.DestFilePath ++ suffixOngoingDownload) fuel with
          | none =>
            simp only [hdf] at h
            cases h
          | some res =>
            rcases res with ⟨o2, tr2, contents⟩
            have hwrites := downloadFileContents_trace fetch opts.Connections
              (sourceUrlsSortedByEstLatency (fst :: rest)) fst.fm
              (opts.DestFilePath ++ suffixOngoingDownload) fuel o2 tr2
              contents hdf
            cases o2 with
            | goPanic =>
              simp only [hdf, Option.some.injEq, Prod.mk.injEq] at h
              intro hmem
              rw [← h.2] at hmem
              rcases List.mem_cons.mp hmem with heq | hmem2
              · cases heq
              · rcases List.mem_append.mp hmem2 with hmem3 | hmem3
                · rcases hwrites _ hmem3 with ⟨off, data, heq⟩
                  cases heq
                · rcases List.mem_cons.mp hmem3 with heq | hmem4
                  · cases heq
                  · cases hmem4
            | err e0 =>
              simp only [hdf, Option.some.injEq, Prod.mk.injEq] at h
              intro hmem
              rw [← h.2] at hmem
              rcases List.mem_cons.mp hmem with heq | hmem2
              · cases heq
              · rcases List.mem_append.mp hmem2 with hmem3 | hmem3
                · rcases hwrites _ hmem3 with ⟨off, data, heq⟩
                  cases heq
                · rcases List.mem_cons.mp hmem3 with heq | hmem4
                  · cases heq
                  · cases hmem4
            | ok =>
              simp only [hdf, Option.some.injEq, Prod.mk.injEq] at h
              intro hmem
              rw [← h.2] at hmem
              rcases List.mem_cons.mp hmem with heq | hmem2
              · cases heq
              · rcases List.mem_append.mp hmem2 with hmem3 | hmem3
                · rcases hwrites _ hmem3 with ⟨off, data, heq⟩
                  cases heq
                · rw [← h.1]
                  exact finishDownload_rename_mem opts.CheckETag fst.fm.eTag
                    contents md5f renameOk
                    (opts.DestFilePath ++ suffixOngoingDownload)
                    opts.DestFilePath _ _ hmem3

/-- Witness for C9 at a concrete failing run (HEAD returns status `500`):
the call errors with an empty filesystem trace, so nothing touched the
destination. -/
theorem c9_error_untouched_witness :
    (∀ e, DlOutcome.err (Err.httpStatus 500) = .err e →
      ∀ op ∈ ([] : List FsOp),
        modifiesPath op (⟨1, 10, false, "d"⟩ : Options).DestFilePath = false)
  ∧ (FsOp.renameF ((⟨1, 10, false, "d"⟩ : Options).DestFilePath ++
        suffixOngoingDownload) (⟨1, 10, false, "d"⟩ : Options).DestFilePath ∈
        ([] : List FsOp) → DlOutcome.err (Err.httpStatus 500) = .ok)
  ∧ (⟨1, 10, false, "d"⟩ : Options).DestFilePath ++ suffixOngoingDownload ≠
      (⟨1, 10, false, "d"⟩ : Options).DestFilePath :=
  c9_error_leaves_dest_untouched ⟨1, 10, false, "d"⟩ ["u"]
    (fun _ => ⟨500, 5, "bytes", "", ""⟩) (fun _ => 0) [0]
    (fun _ _ _ => some []) (fun _ => []) true 3 (.err (.httpStatus 500)) []
    (by rfl)

lemma length_filterMap_of_forall_some {α β : Type} (f : α → Option β) :
    ∀ l : List α, (∀ a ∈ l, ∃ b, f a = some b) →
      (l.filterMap f).length = l.length := by
  intro l
  induction l with
  | nil => intro _; rfl
  | cons a l ih =>
    intro hall
    rcases hall a (by simp) with ⟨b, hb⟩
    rw [List.filterMap_cons, hb, List.length_cons,
      ih (fun x hx => hall x (by simp [hx]))]
    rfl

lemma fetchFileMetadataFromSources_ok_length (sourceUrls : List String)
    (head : Nat → HeadResponse) (lat : Nat → Nat) (arrival : List Nat)
    (metas : List sourceFileMetadata)
    (h : fetchFileMetadataFromSources sourceUrls head lat arrival = .ok metas)
    (harr : List.Perm arrival (List.range sourceUrls.length)) :
    metas.length = sourceUrls.length := by
  rw [fetchFileMetadataFromSources] at h
  cases hfind : ((List.range sourceUrls.length).map
      (fun k => probeSource (sourceUrls.getD k "") (lat k) (head k))).findSome?
        (fun r => match r with | .error e => some e | .ok _ => none) with
  | some e =>
    simp only [hfind] at h
    cases h
  | none =>
    simp only [hfind, Except.ok.injEq] at h
    rw [← h]
    rw [length_filterMap_of_forall_some]
    · exact harr.length_eq.trans (by simp)
    · intro k hk
      have hkr : k ∈ List.range sourceUrls.length := harr.mem_iff.mp hk
      have hklt : k < sourceUrls.length := List.mem_range.mp hkr
      have hlen : ((List.range sourceUrls.length).map
          (fun k => probeSource (sourceUrls.getD k "") (lat k)
            (head k))).length = sourceUrls.length := by simp
      have hgd : ((List.range sourceUrls.length).map
          (fun k => probeSource (sourceUrls.getD k "") (lat k)
            (head k))).getD k (.error .noSourceUrls) =
          probeSource (sourceUrls.getD k "") (lat k) (head k) := by
        rw [List.getD_eq_getElem _ _ (by omega)]
        simp
      rw [hgd]
      have hnone := List.findSome?_eq_none_iff.mp hfind
        (probeSource (sourceUrls.getD k "") (lat k) (head k))
        (by
          apply List.mem_map_of_mem
          exact hkr)
      cases hps : probeSource (sourceUrls.getD k "") (lat k) (head k) with
      | error e2 =>
        rw [hps] at hnone
        cases hnone
      | ok m => exact ⟨m, by simp [hps]⟩

lemma sourceUrlsSorted_length (l : List sourceFileMetadata) :
    (sourceUrlsSortedByEstLatency l).length = l.length := by
  rw [sourceUrlsSortedByEstLatency, List.length_map]
  exact (sortSliceGo_perm l).length_eq

/-- **C10** (confirmed).  The chunk-size computation divides the reconciled
file size by `Connections` with no guard.  With `Connections ≥ 1` the
division is well-defined (`chunkSizeGo` returns `size / connections`) and no
division-by-zero panic occurs anywhere in a `Download` call (under any
schedule and any oracles); nothing validates the precondition, and a
`Download` call with `Connections = 0` and a successfully probed source
reaches the unguarded division and panics — concretely exhibited in the
third conjunct, where the call ends in the divide-by-zero panic right after
creating the staging file. -/
theorem c10_unguarded_division :
    (∀ size connections : Nat, 1 ≤ connections →
      chunkSizeGo size connections = some (size / connections))
  ∧ (∀ (opts : Options) (sourceUrls : List String) (head : Nat → HeadResponse)
      (lat : Nat → Nat) (arrival : List Nat)
      (fetch : String → Nat → Nat → Option Bytes) (md5f : Bytes → Bytes)
      (renameOk : Bool) (fuel : Nat) (tr : List FsOp),
      1 ≤ opts.Connections →
      List.Perm arrival (List.range sourceUrls.length) →
      DownloadGo opts sourceUrls head lat arrival fetch md5f renameOk fuel ≠
        some (.goPanic, tr))
  ∧ (chunkSizeGo 5 0 = none ∧
      DownloadGo ⟨0, 10, false, "d"⟩ ["u"]
          (fun _ => ⟨200, 5, "bytes", "", ""⟩) (fun _ => 0) [0]
          (fun _ _ _ => some []) (fun _ => []) true 9 =
        some (.goPanic, [.createF "d.download", .closeF "d.download"])) := by
  refine ⟨?_, ?_, rfl, by rfl⟩
  · intro size connections hc
    rw [chunkSizeGo, if_neg (by omega)]
  · intro opts sourceUrls head lat arrival fetch md5f renameOk fuel tr hconn
      harr hEq
    rw [DownloadGo] at hEq
    by_cases hlen : sourceUrls.length = 0
    · rw [if_pos hlen] at hEq
      simp at hEq
    · rw [if_neg hlen] at hEq
      cases hfm : fetchFileMetadataFromSources sourceUrls head lat arrival with
      | error e =>
        simp only [hfm] at hEq
        simp at hEq
      | ok metas =>
        simp only [hfm] at hEq
        have hml : metas.length = sourceUrls.length :=
          fetchFileMetadataFromSources_ok_length sourceUrls head lat arrival
            metas hfm harr
        by_cases hmm : allSourcesMatchFileMetadata metas opts.CheckETag = false
        · rw [if_pos hmm] at hEq
          simp at hEq
        · rw [if_neg hmm] at hEq
          cases metas with
          | nil =>
            exact hlen (by simpa using hml.symm)
          | cons fst rest =>
            cases hdf : downloadFileContents fetch opts.Connections
                (sourceUrlsSortedByEstLatency (fst :: rest)) fst.fm
                (opts.DestFilePath ++ suffixOngoingDownload) fuel with
            | none =>
              simp only [hdf] at hEq
              cases hEq
            | some res =>
              rcases res with ⟨o2, tr2, contents⟩
              cases o2 with
              | goPanic =>
                rcases downloadFileContents_goPanic fetch opts.Connections
                    (sourceUrlsSortedByEstLatency (fst :: rest)) fst.fm
                    (opts.DestFilePath ++ suffixOngoingDownload) fuel tr2
                    contents hdf with hc0 | hu0
                · omega
                · rw [sourceUrlsSorted_length] at hu0
                  simp at hu0
              | err e =>
                simp only [hdf] at hEq
                simp at hEq
              | ok =>
                simp only [hdf, Option.some.injEq, Prod.mk.injEq] at hEq
                have hpan := hEq.1
                rcases finishDownload_fst opts.CheckETag fst.fm.eTag contents
                    md5f renameOk (opts.DestFilePath ++ suffixOngoingDownload)
                    opts.DestFilePath with hf | hf | hf <;>
                  rw [hf] at hpan <;> cases hpan

/-- Witness for C10 at a concrete well-formed call (`Connections = 1`, one
source, schedule `[0]`): the division is guarded by the precondition and the
call does not panic. -/
theorem c10_unguarded_division_witness :
    chunkSizeGo 7 1 = some (7 / 1) ∧
    DownloadGo ⟨1, 10, false, "d"⟩ ["u"] (fun _ => ⟨200, 2, "bytes", "", ""⟩)
        (fun _ => 0) [0] (fun _ _ _ => some [7, 8]) (fun _ => []) true 5 ≠
      some (.goPanic, []) :=
  ⟨c10_unguarded_division.1 7 1 (by decide),
   c10_unguarded_division.2.1 ⟨1, 10, false, "d"⟩ ["u"]
     (fun _ => ⟨200, 2, "bytes", "", ""⟩) (fun _ => 0) [0]
     (fun _ _ _ => some [7, 8]) (fun _ => []) true 5 [] (by decide)
     (by decide)⟩
